import Mathlib

/-!
Verification development for the DAT market-data decoder
(`data_parser_qmt.py`).  The Python source is shallowly embedded:

* a file's bytes are a `List ℕ` (each entry one byte);
* `struct.unpack('<8I', b)` becomes `unpack8I`, eight little-endian
  unsigned 32-bit integers read from a 32-byte block;
* Python floats are modelled as rationals `ℚ`; `round(x, 2)` becomes
  `round2`, round-half-to-even at two decimal digits;
* `datetime.fromtimestamp` + `strftime` (an external, locale-dependent
  effect) is abstracted as a parameter
  `conv : ℤ → Option (String × String)` returning the date-only and the
  date-time rendering, `none` modelling a raised exception;
* the pandas frame is a `List Row`; `sort_values` is `insertionSort`
  on the timestamp string; `pct_change` is computed positionally, the
  first entry undefined (`none`), and a zero previous close yields the
  undefined sentinel `none` (modelling the NaN/inf float sentinels).
-/

set_option maxRecDepth 20000

namespace DataToolsQMT

/-- Rational multiplication, written out on numerators and denominators
(equal to `a * b`, see `qmul_eq`; this spelling keeps the definitions
evaluable by `decide`). -/
def qmul (a b : ℚ) : ℚ := Rat.divInt (a.num * b.num) (a.den * b.den)

/-- Rational division: equal to `a / b` (with the `x / 0 = 0` convention),
see `qdiv_eq`. -/
def qdiv (a b : ℚ) : ℚ := Rat.divInt (a.num * b.den) (a.den * b.num)

/-- Rational subtraction: equal to `a - b`, see `qsub_eq`. -/
def qsub (a b : ℚ) : ℚ :=
  Rat.divInt (a.num * b.den - a.den * b.num) (a.den * b.den)

/-- Round-half-to-even of a rational to an integer (Python `round`). -/
def rhe (q : ℚ) : ℤ :=
  let f := ⌊q⌋
  let r := qsub q (f : ℚ)
  if r < mkRat 1 2 then f
  else if mkRat 1 2 < r then f + 1
  else if f % 2 = 0 then f else f + 1

/-- Python `round(x, 2)`: round-half-to-even at two decimal digits. -/
def round2 (x : ℚ) : ℚ := Rat.divInt (rhe (qmul 100 x)) 100

/-- Byte at index `i` of a byte list (out of range reads 0; never
exercised on in-range indices). -/
def byteAt (bs : List ℕ) (i : ℕ) : ℕ := bs.getD i 0

/-- Little-endian unsigned 32-bit integer number `j` of a 32-byte block. -/
def decodeU32 (bs : List ℕ) (j : ℕ) : ℕ :=
  byteAt bs (4*j) + 256 * byteAt bs (4*j+1) + 256^2 * byteAt bs (4*j+2) +
    256^3 * byteAt bs (4*j+3)

/-- Model of `struct.unpack('<8I', bs)`: requires exactly 32 bytes, else raises
(`none`). -/
def unpack8I (bs : List ℕ) : Option (Fin 8 → ℕ) :=
  if bs.length = 32 then some (fun j => decodeU32 bs (j : ℕ)) else none

/-- The record size in bytes: `self.record_size = 32`. -/
def recordSize : ℕ := 32

/-- The number of full records: `record_count = len(data) // self.record_size`. -/
def recordCount (data : List ℕ) : ℕ := data.length / recordSize

/-- The slice `data[i*record_size : i*record_size + record_size]`. -/
def sliceRecord (data : List ℕ) (i : ℕ) : List ℕ :=
  (data.drop (i * recordSize)).take recordSize

/-- The sequence of record slices of a file, in file order. -/
def fileRecords (data : List ℕ) : List (List ℕ) :=
  (List.range (recordCount data)).map (sliceRecord data)

/-- Model of `DATParser.parse_date`: an integer strictly between 1 500 000 000 and
2 000 000 000 is treated as a Unix timestamp and formatted by the local
calendar conversion `conv` (date-only when `include_time` is false,
date-time when true); any other integer, and any conversion failure,
yields the decimal string of the integer. -/
def parse_date (conv : ℤ → Option (String × String)) (date_int : ℤ)
    (include_time : Bool) : String :=
  if 1500000000 < date_int ∧ date_int < 2000000000 then
    match conv date_int with
    | some (dateOnly, dateTime) => if include_time then dateTime else dateOnly
    | none => toString date_int
  else toString date_int

/-- Prefix test on character lists. -/
def isPrefixOfChars : List Char → List Char → Bool
  | [], _ => true
  | _ :: _, [] => false
  | p :: ps, c :: cs => p == c && isPrefixOfChars ps cs

/-- Containment of `pat` in `s`, on character lists (Python `in`). -/
def containsChars (pat : List Char) : List Char → Bool
  | [] => isPrefixOfChars pat []
  | c :: cs => isPrefixOfChars pat (c :: cs) || containsChars pat cs

/-- Substring test used to model Python `in` on strings. -/
def containsSubstring (s pat : String) : Bool := containsChars pat.data s.data

/-- Python `str.lower`, character by character. -/
def lowerStr (s : String) : String := ⟨s.data.map Char.toLower⟩

/-- Model of `DATParser._detect_data_type`: intraday iff the lowercased path
contains `"5m"` or `"min"`. -/
def _detect_data_type (file_path : String) : Bool :=
  let path_str := lowerStr file_path
  containsSubstring path_str "5m" || containsSubstring path_str "min"

/-- The final path component: characters after the last `/`. -/
def basenameChars (p : List Char) : List Char :=
  p.foldl (fun acc c => if c = '/' then [] else acc ++ [c]) []

/-- Model of `Path(file_path).stem`: the final component without its suffix; the
suffix starts at the last dot, provided that dot is neither the first nor
the last character of the component. -/
def stem (file_path : String) : String :=
  let name := basenameChars file_path.data
  let tail := (name.reverse.takeWhile (fun c => c ≠ '.')).length
  if tail = name.length then ⟨name⟩
  else
    let i := name.length - 1 - tail
    if 0 < i ∧ i < name.length - 1 then ⟨name.take i⟩ else ⟨name⟩

/-- One accepted bar as appended to `records` (timestamp string plus the
rounded numeric fields). -/
structure RawBar where
  timestamp : String
  open_ : ℚ
  high : ℚ
  low : ℚ
  close : ℚ
  volume : ℕ
  amount : ℚ
deriving DecidableEq, Repr

/-- One row of the final frame (after code attachment, sorting and
pct-change derivation). -/
structure Row where
  code : String
  timestamp : String
  open_ : ℚ
  high : ℚ
  low : ℚ
  close : ℚ
  volume : ℕ
  amount : ℚ
  pct_change : Option ℚ
deriving DecidableEq, Repr

/-- The plausibility ceiling `price_limit`, larger for intraday data. -/
def price_limit (is_intraday : Bool) : ℕ :=
  if is_intraday then 10000000 else 1000000

/-- The scaled price at index `i` of a price record (divide by 1000). -/
def scaledPrice (price_unpacked : Fin 8 → ℕ) (i : Fin 8) : ℚ :=
  qdiv (price_unpacked i : ℚ) 1000

/-- Volume extraction: unscaled for intraday, ×100 for daily. -/
def barVolume (is_intraday : Bool) (volume_unpacked : Fin 8 → ℕ) : ℕ :=
  if is_intraday then volume_unpacked 0 else volume_unpacked 0 * 100

/-- Amount extraction: for intraday, divide by 100 exactly when the raw
value exceeds 1 000 000; for daily, unscaled. -/
def barAmount (is_intraday : Bool) (volume_unpacked : Fin 8 → ℕ) : ℚ :=
  if is_intraday then
    (if 1000000 < volume_unpacked 2 then qdiv (volume_unpacked 2 : ℚ) 100
     else (volume_unpacked 2 : ℚ))
  else (volume_unpacked 2 : ℚ)

/-- The body of the per-pair validation/assembly (source lines 95-139):
timestamp gate, price-plausibility gate, scaling, volume/amount
extraction, quality gates, rounding and emission. -/
def assembleBar (conv : ℤ → Option (String × String)) (is_intraday : Bool)
    (price_unpacked volume_unpacked : Fin 8 → ℕ) : Option RawBar :=
  if 1500000000 < price_unpacked 2 ∧ price_unpacked 2 < 2000000000 then
    if 3 ≤ ([price_unpacked 3, price_unpacked 4, price_unpacked 5,
        price_unpacked 6].filter
          (fun x => decide (0 < x ∧ x < price_limit is_intraday))).length then
      let open_price : ℚ := scaledPrice price_unpacked 3
      let high_price : ℚ := scaledPrice price_unpacked 4
      let low_price : ℚ := scaledPrice price_unpacked 5
      let close_price : ℚ := scaledPrice price_unpacked 6
      if (open_price = 0 ∧ high_price = 0 ∧ low_price = 0 ∧ close_price = 0) ∨
         (open_price < 0 ∨ high_price < 0 ∨ low_price < 0 ∨ close_price < 0)
      then none
      else if high_price < low_price ∨
        high_price < max open_price close_price ∨
        low_price > min open_price close_price then none
      else some
        { timestamp := parse_date conv (price_unpacked 2 : ℤ) is_intraday
          open_ := round2 open_price
          high := round2 high_price
          low := round2 low_price
          close := round2 close_price
          volume := barVolume is_intraday volume_unpacked
          amount := round2 (barAmount is_intraday volume_unpacked) }
    else none
  else none

/-- One loop iteration: unpack both 32-byte slices (a `struct.error` on
either skips the pair) and run the assembly body. -/
def processPair (conv : ℤ → Option (String × String)) (is_intraday : Bool)
    (price_data volume_data : List ℕ) : Option RawBar :=
  match unpack8I price_data, unpack8I volume_data with
  | some price_unpacked, some volume_unpacked =>
      assembleBar conv is_intraday price_unpacked volume_unpacked
  | _, _ => none

/-- The pair loop (source lines 77-142): records are consumed in
non-overlapping (price, volume) pairs; a slice shorter than 32 bytes
breaks the scan; a dangling final record is ignored. -/
def assemblePairs (conv : ℤ → Option (String × String)) (is_intraday : Bool) :
    List (List ℕ) → List RawBar
  | price_data :: volume_data :: rest =>
    if price_data.length < recordSize ∨ volume_data.length < recordSize then []
    else
      match processPair conv is_intraday price_data volume_data with
      | some bar => bar :: assemblePairs conv is_intraday rest
      | none => assemblePairs conv is_intraday rest
  | _ => []

/-- Ordering of bars by their timestamp string (`df.sort_values`). -/
def tsLE (a b : RawBar) : Prop := a.timestamp ≤ b.timestamp

instance : DecidableRel tsLE := fun a b =>
  decidable_of_iff (¬ b.timestamp.toList < a.timestamp.toList)
    (by rw [← String.lt_iff_toList_lt]; exact not_lt)

instance : IsTotal RawBar tsLE := ⟨fun a b => le_total a.timestamp b.timestamp⟩

instance : IsTrans RawBar tsLE := ⟨fun _ _ _ => le_trans⟩

/-- One step of `df['close'].pct_change() * 100`: undefined sentinel on a
zero previous close (pandas NaN/inf), else the relative change in
percent. -/
def pctChange (prev cur : ℚ) : Option ℚ :=
  if prev = 0 then none else some (qmul (qsub (qdiv cur prev) 1) 100)

/-- Attach the instrument code and the derived `pct_change` column to the
(already sorted) bars; `prevClose` is the close of the preceding row,
`none` before the first row. -/
def attachPct (code : String) : Option ℚ → List RawBar → List Row
  | _, [] => []
  | prevClose, b :: rest =>
    { code := code
      timestamp := b.timestamp
      open_ := b.open_
      high := b.high
      low := b.low
      close := b.close
      volume := b.volume
      amount := b.amount
      pct_change :=
        match prevClose with
        | none => none
        | some pc => pctChange pc b.close } ::
      attachPct code (some b.close) rest

/-- Model of `DATParser.parse_dat_file`: `readResult` is the outcome of reading the
file (`none` = unreadable, caught by the outer `except`).  Returns the
rows of the resulting frame (empty frame = `[]`). -/
def parse_dat_file (conv : ℤ → Option (String × String)) (file_path : String)
    (readResult : Option (List ℕ)) : List Row :=
  match readResult with
  | none => []
  | some data =>
    if recordCount data = 0 then []
    else
      let is_intraday := _detect_data_type file_path
      let records := assemblePairs conv is_intraday (fileRecords data)
      if records.isEmpty then []
      else
        attachPct (stem file_path) none (List.insertionSort tsLE records)

/-- Model of `DATParser.parse_directory` restricted to its data path: per-file
parses, empty frames dropped, the rest concatenated.  Each input is a
(path, read outcome) pair. -/
def parse_directory (conv : ℤ → Option (String × String))
    (files : List (String × Option (List ℕ))) : List Row :=
  (((files.map (fun f => parse_dat_file conv f.1 f.2)).filter
    (fun df => ¬ df.isEmpty)).flatten)

/-! Concrete test fixtures: a calendar-conversion oracle and a few
hand-assembled byte files, used to instantiate the theorems below on
concrete inputs. -/

/-- A concrete (injective, monotone on the timestamp range) calendar
conversion used for concrete instantiations. -/
def convT : ℤ → Option (String × String) :=
  fun n => some (toString n, toString n ++ " T")

/-- Little-endian 4-byte encoding of an unsigned 32-bit value. -/
def u32le (n : ℕ) : List ℕ := [n % 256, n / 256 % 256, n / 256^2 % 256, n / 256^3 % 256]

/-- A 32-byte record from its eight field values. -/
def mkRecord (a b c d e f g h : ℕ) : List ℕ :=
  u32le a ++ u32le b ++ u32le c ++ u32le d ++ u32le e ++ u32le f ++ u32le g ++ u32le h

/-- A daily price record: timestamp 1 700 000 000, prices 10.000 / 10.500
/ 9.900 / 10.200 (scaled by 1000). -/
def priceRec1 : List ℕ := mkRecord 0 0 1700000000 10000 10500 9900 10200 0

/-- Companion volume record: volume 500, amount 5 000 000. -/
def volRec1 : List ℕ := mkRecord 500 0 5000000 0 0 0 0 0

/-- An earlier daily price record (timestamp 1 600 000 000). -/
def priceRec0 : List ℕ := mkRecord 0 0 1600000000 20000 21000 19000 20400 0

/-- Companion volume record: volume 700, amount 6 000 000. -/
def volRec0 : List ℕ := mkRecord 700 0 6000000 0 0 0 0 0

/-- A two-pair file, pairs in reverse chronological order. -/
def fileA : List ℕ := priceRec1 ++ volRec1 ++ priceRec0 ++ volRec0

/-- Volume record with amount 2 000 000 (above the intraday heuristic
threshold). -/
def volRec2 : List ℕ := mkRecord 500 0 2000000 0 0 0 0 0

/-- A one-pair intraday file. -/
def fileB : List ℕ := priceRec1 ++ volRec2

/-- A price record whose raw low (index 5) is zero but which passes every
gate. -/
def priceRecZL : List ℕ := mkRecord 0 0 1700000000 10000 10500 0 10200 0

/-- One-pair file with a zero raw low. -/
def fileZL : List ℕ := priceRecZL ++ volRec1

/-- A price record with tiny raw prices 1 / 2 / 1 / 2 (all below half a
cent after scaling). -/
def priceRecTiny : List ℕ := mkRecord 0 0 1700000000 1 2 1 2 0

/-- One-pair file whose accepted bar rounds to all-zero prices. -/
def fileTiny : List ℕ := priceRecTiny ++ volRec1

/-- A price record that fails the timestamp gate (index 2 is zero). -/
def priceRecBadTs : List ℕ := mkRecord 0 0 0 10000 10500 9900 10200 0

/-- One-pair file in which every pair is rejected. -/
def fileRej : List ℕ := priceRecBadTs ++ volRec1

/-- A three-record (one pair plus dangling record) file. -/
def fileOdd : List ℕ := priceRec1 ++ volRec1 ++ priceRec0

/-- The daily path used for concrete instantiations. -/
def pathA : String := "data/szdayK/000001.DAT"

/-- The unpacked view of a 32-byte record. -/
def unpackedOf (rec : List ℕ) : Fin 8 → ℕ := fun j => decodeU32 rec (j : ℕ)

/-- The accepted daily bar of `priceRec1`/`volRec1`. -/
def barD1 : RawBar :=
  { timestamp := "1700000000", open_ := 10, high := mkRat 21 2,
    low := mkRat 99 10, close := mkRat 51 5, volume := 50000, amount := 5000000 }

/-- The accepted intraday bar of `priceRec1`/`volRec2`. -/
def barB : RawBar :=
  { timestamp := "1700000000 T", open_ := 10, high := mkRat 21 2,
    low := mkRat 99 10, close := mkRat 51 5, volume := 500, amount := 20000 }

/-- The accepted daily bar of `priceRecZL`/`volRec1` (zero low). -/
def barZL : RawBar :=
  { timestamp := "1700000000", open_ := 10, high := mkRat 21 2,
    low := 0, close := mkRat 51 5, volume := 50000, amount := 5000000 }

/-- First output row of `fileA` under `convT` (earlier timestamp). -/
def rowD0 : Row :=
  { code := "000001", timestamp := "1600000000", open_ := 20, high := 21,
    low := 19, close := mkRat 102 5, volume := 70000, amount := 6000000,
    pct_change := none }

/-- The all-zero-prices output row of `fileTiny` under `convT`. -/
def rowTiny : Row :=
  { code := "a", timestamp := "1700000000", open_ := 0, high := 0,
    low := 0, close := 0, volume := 50000, amount := 5000000,
    pct_change := none }

/-! ### Bridge lemmas for the evaluable arithmetic -/

theorem den_cast_ne_zero (a : ℚ) : (a.den : ℚ) ≠ 0 := by
  exact_mod_cast a.den_nz

theorem num_cast_eq (a : ℚ) : (a.num : ℚ) = a * a.den := by
  have h := Rat.num_div_den a
  rw [div_eq_iff (den_cast_ne_zero a)] at h
  exact h

theorem qmul_eq (a b : ℚ) : qmul a b = a * b := by
  rw [qmul, Rat.divInt_eq_div]
  push_cast
  rw [← div_mul_div_comm, Rat.num_div_den, Rat.num_div_den]

theorem qdiv_eq (a b : ℚ) : qdiv a b = a / b := by
  rcases eq_or_ne b 0 with rfl | hb
  · show Rat.divInt (a.num * (0 : ℚ).den) (a.den * (0 : ℚ).num) = a / 0
    norm_num [Rat.divInt_zero]
  · have hbn : (b.num : ℚ) ≠ 0 := by
      exact_mod_cast Rat.num_ne_zero.mpr hb
    rw [qdiv, Rat.divInt_eq_div]
    push_cast
    rw [num_cast_eq a, num_cast_eq b]
    rw [div_eq_div_iff (by
        exact mul_ne_zero (den_cast_ne_zero a)
          (mul_ne_zero hb (den_cast_ne_zero b)))
      (by exact hb)]
    ring

theorem qsub_eq (a b : ℚ) : qsub a b = a - b := by
  rw [qsub, Rat.divInt_eq_div]
  push_cast
  rw [num_cast_eq a, num_cast_eq b]
  rw [div_eq_iff (mul_ne_zero (den_cast_ne_zero a) (den_cast_ne_zero b))]
  ring

/-! ### Properties of the rounding function -/

theorem rhe_cond_eq (q : ℚ) : qsub q ((⌊q⌋ : ℤ) : ℚ) = Int.fract q := by
  rw [qsub_eq, Int.fract]

theorem mkRat_one_two : (mkRat 1 2 : ℚ) = 1/2 := by
  rw [Rat.mkRat_eq_div]
  norm_num

theorem rhe_of_fract_lt {q : ℚ} (h : Int.fract q < 1/2) : rhe q = ⌊q⌋ := by
  rw [rhe]
  simp only [rhe_cond_eq, mkRat_one_two]
  rw [if_pos h]

theorem rhe_of_lt_fract {q : ℚ} (h : 1/2 < Int.fract q) : rhe q = ⌊q⌋ + 1 := by
  rw [rhe]
  simp only [rhe_cond_eq, mkRat_one_two]
  rw [if_neg (by linarith), if_pos h]

theorem rhe_tie {q : ℚ} (h : Int.fract q = 1/2) :
    rhe q = if ⌊q⌋ % 2 = 0 then ⌊q⌋ else ⌊q⌋ + 1 := by
  rw [rhe]
  simp only [rhe_cond_eq, mkRat_one_two]
  rw [if_neg (by rw [h]; exact lt_irrefl _), if_neg (by rw [h]; exact lt_irrefl _)]

theorem floor_le_rhe (q : ℚ) : ⌊q⌋ ≤ rhe q := by
  rcases lt_trichotomy (Int.fract q) (1/2) with h | h | h
  · rw [rhe_of_fract_lt h]
  · rw [rhe_tie h]
    split <;> omega
  · rw [rhe_of_lt_fract h]
    omega

theorem rhe_le_succ (q : ℚ) : rhe q ≤ ⌊q⌋ + 1 := by
  rcases lt_trichotomy (Int.fract q) (1/2) with h | h | h
  · rw [rhe_of_fract_lt h]
    omega
  · rw [rhe_tie h]
    split <;> omega
  · rw [rhe_of_lt_fract h]

theorem rhe_mono : Monotone rhe := by
  intro x y hxy
  have hf : ⌊x⌋ ≤ ⌊y⌋ := Int.floor_le_floor hxy
  rcases hf.lt_or_eq with hlt | heq
  · have h1 := rhe_le_succ x
    have h2 := floor_le_rhe y
    omega
  · have hfx : Int.fract x ≤ Int.fract y := by
      simp only [Int.fract]
      rw [heq]
      exact sub_le_sub_right hxy _
    rcases lt_trichotomy (Int.fract x) (1/2) with h1 | h1 | h1
    · rw [rhe_of_fract_lt h1, heq]
      exact floor_le_rhe y
    · rcases lt_or_eq_of_le (h1 ▸ hfx) with h2 | h2
      · rw [rhe_of_lt_fract h2]
        have := rhe_le_succ x
        omega
      · rw [rhe_tie h1, rhe_tie h2.symm, heq]
    · have h2 : 1/2 < Int.fract y := lt_of_lt_of_le h1 hfx
      rw [rhe_of_lt_fract h1, rhe_of_lt_fract h2, heq]

theorem round2_eq (x : ℚ) : round2 x = (rhe (100 * x) : ℚ) / 100 := by
  rw [round2, Rat.divInt_eq_div, qmul_eq]
  norm_num

theorem round2_mono : Monotone round2 := by
  intro x y h
  rw [round2_eq, round2_eq]
  have h2 : ((rhe (100 * x) : ℤ) : ℚ) ≤ ((rhe (100 * y) : ℤ) : ℚ) := by
    exact_mod_cast rhe_mono (by linarith : (100 : ℚ) * x ≤ 100 * y)
  exact (div_le_div_iff_of_pos_right (by norm_num)).mpr h2

theorem rhe_intCast (m : ℤ) : rhe ((m : ℤ) : ℚ) = m := by
  rw [rhe_of_fract_lt (by rw [Int.fract_intCast]; norm_num), Int.floor_intCast]

theorem round2_of_mul_100_int {x : ℚ} (m : ℤ) (h : ((m : ℤ) : ℚ) = 100 * x) :
    round2 x = x := by
  rw [round2_eq, ← h, rhe_intCast, h]
  exact mul_div_cancel_left₀ x (by norm_num)

theorem round2_natCast (n : ℕ) : round2 ((n : ℕ) : ℚ) = n :=
  round2_of_mul_100_int (100 * n) (by push_cast; ring)

theorem round2_zero : round2 0 = 0 := by
  simpa using round2_natCast 0

theorem round2_nonneg {x : ℚ} (h : 0 ≤ x) : 0 ≤ round2 x := by
  have h2 := round2_mono h
  rwa [round2_zero] at h2

theorem round2_min (a b : ℚ) : round2 (min a b) = min (round2 a) (round2 b) :=
  round2_mono.map_min

theorem round2_max (a b : ℚ) : round2 (max a b) = max (round2 a) (round2 b) :=
  round2_mono.map_max

/-! ### Structural lemmas on the assembler -/

theorem assembleBar_elim {conv : ℤ → Option (String × String)} {intr : Bool}
    {p v : Fin 8 → ℕ} {b : RawBar}
    (h : assembleBar conv intr p v = some b) :
    (1500000000 < p 2 ∧ p 2 < 2000000000) ∧
    3 ≤ ([p 3, p 4, p 5, p 6].filter
        (fun x => decide (0 < x ∧ x < price_limit intr))).length ∧
    ¬ (scaledPrice p 4 < scaledPrice p 5 ∨
       scaledPrice p 4 < max (scaledPrice p 3) (scaledPrice p 6) ∨
       scaledPrice p 5 > min (scaledPrice p 3) (scaledPrice p 6)) ∧
    b = { timestamp := parse_date conv (p 2 : ℤ) intr
          open_ := round2 (scaledPrice p 3)
          high := round2 (scaledPrice p 4)
          low := round2 (scaledPrice p 5)
          close := round2 (scaledPrice p 6)
          volume := barVolume intr v
          amount := round2 (barAmount intr v) } := by
  simp only [assembleBar] at h
  split_ifs at h with h1 h2 h3 h4
  all_goals first
    | exact Option.noConfusion h
    | (rw [Option.some_inj] at h
       exact ⟨h1, h2, h4, h.symm⟩)

theorem processPair_elim {conv : ℤ → Option (String × String)} {intr : Bool}
    {pd vd : List ℕ} {b : RawBar}
    (h : processPair conv intr pd vd = some b) :
    ∃ p v : Fin 8 → ℕ, assembleBar conv intr p v = some b := by
  rw [processPair] at h
  rcases hp : unpack8I pd with _ | p <;> rcases hv : unpack8I vd with _ | v <;>
    rw [hp, hv] at h <;> simp at h
  exact ⟨p, v, h⟩

theorem mem_assemblePairs {conv : ℤ → Option (String × String)} {intr : Bool} :
    ∀ (rs : List (List ℕ)) (b : RawBar), b ∈ assemblePairs conv intr rs →
      ∃ p v : Fin 8 → ℕ, assembleBar conv intr p v = some b
  | [], b => by simp [assemblePairs]
  | [r], b => by simp [assemblePairs]
  | pd :: vd :: rest, b => by
    simp only [assemblePairs]
    split
    · simp
    · cases hpp : processPair conv intr pd vd with
      | some bar =>
        simp only [hpp, List.mem_cons]
        rintro (rfl | hmem2)
        · exact processPair_elim hpp
        · exact mem_assemblePairs rest b hmem2
      | none =>
        simp only [hpp]
        exact mem_assemblePairs rest b

theorem attachPct_mem {code : String} :
    ∀ {pc : Option ℚ} {l : List RawBar} {r : Row}, r ∈ attachPct code pc l →
      ∃ b ∈ l, r.timestamp = b.timestamp ∧ r.open_ = b.open_ ∧ r.high = b.high ∧
        r.low = b.low ∧ r.close = b.close ∧ r.volume = b.volume ∧
        r.amount = b.amount
  | _, [], r => by simp [attachPct]
  | pc, b :: rest, r => by
    simp only [attachPct, List.mem_cons]
    rintro (rfl | hmem)
    · exact ⟨b, Or.inl rfl, rfl, rfl, rfl, rfl, rfl, rfl, rfl⟩
    · obtain ⟨b', hb', hfields⟩ := attachPct_mem hmem
      exact ⟨b', Or.inr hb', hfields⟩

theorem parse_eq_cases (conv : ℤ → Option (String × String)) (path : String)
    (read : Option (List ℕ)) :
    parse_dat_file conv path read = [] ∨
    ∃ data, read = some data ∧
      parse_dat_file conv path read =
        attachPct (stem path) none (List.insertionSort tsLE
          (assemblePairs conv (_detect_data_type path) (fileRecords data))) := by
  cases read with
  | none => exact Or.inl rfl
  | some data =>
    simp only [parse_dat_file]
    split
    · exact Or.inl rfl
    · split
      · exact Or.inl rfl
      · exact Or.inr ⟨data, rfl, rfl⟩

theorem scaledPrice_nonneg (p : Fin 8 → ℕ) (i : Fin 8) : 0 ≤ scaledPrice p i := by
  rw [scaledPrice, qdiv_eq]
  positivity

theorem scaledPrice_eq_zero_iff (p : Fin 8 → ℕ) (i : Fin 8) :
    scaledPrice p i = 0 ↔ p i = 0 := by
  rw [scaledPrice, qdiv_eq, div_eq_zero_iff]
  norm_num

theorem bar_invariant {conv : ℤ → Option (String × String)} {intr : Bool}
    {p v : Fin 8 → ℕ} {b : RawBar} (h : assembleBar conv intr p v = some b) :
    b.low ≤ min b.open_ b.close ∧ max b.open_ b.close ≤ b.high := by
  obtain ⟨-, -, hB, rfl⟩ := assembleBar_elim h
  push_neg at hB
  obtain ⟨hHL, hHmax, hLmin⟩ := hB
  constructor
  · show round2 (scaledPrice p 5) ≤
      min (round2 (scaledPrice p 3)) (round2 (scaledPrice p 6))
    rw [← round2_min]
    exact round2_mono hLmin
  · show max (round2 (scaledPrice p 3)) (round2 (scaledPrice p 6)) ≤
      round2 (scaledPrice p 4)
    rw [← round2_max]
    exact round2_mono hHmax

theorem bar_price_nonneg {conv : ℤ → Option (String × String)} {intr : Bool}
    {p v : Fin 8 → ℕ} {b : RawBar} (h : assembleBar conv intr p v = some b) :
    0 ≤ b.open_ ∧ 0 ≤ b.high ∧ 0 ≤ b.low ∧ 0 ≤ b.close := by
  obtain ⟨-, -, -, rfl⟩ := assembleBar_elim h
  exact ⟨round2_nonneg (scaledPrice_nonneg p 3), round2_nonneg (scaledPrice_nonneg p 4),
    round2_nonneg (scaledPrice_nonneg p 5), round2_nonneg (scaledPrice_nonneg p 6)⟩

theorem accepted_raw_pos {conv : ℤ → Option (String × String)} {intr : Bool}
    {p v : Fin 8 → ℕ} {b : RawBar} (h : assembleBar conv intr p v = some b) :
    0 < p 3 ∧ 0 < p 4 ∧ 0 < p 6 := by
  obtain ⟨-, hpl, hB, -⟩ := assembleBar_elim h
  push_neg at hB
  obtain ⟨hHL, hHmax, hLmin⟩ := hB
  have hmax3 : scaledPrice p 3 ≤ scaledPrice p 4 :=
    le_trans (le_max_left _ _) hHmax
  have hmax6 : scaledPrice p 6 ≤ scaledPrice p 4 :=
    le_trans (le_max_right _ _) hHmax
  refine ⟨?_, ?_, ?_⟩
  · rcases Nat.eq_zero_or_pos (p 3) with hp3 | hp3
    · exfalso
      have hsp3 : scaledPrice p 3 = 0 := (scaledPrice_eq_zero_iff p 3).mpr hp3
      have hp5 : p 5 = 0 := by
        refine (scaledPrice_eq_zero_iff p 5).mp (le_antisymm ?_ (scaledPrice_nonneg p 5))
        calc scaledPrice p 5 ≤ min (scaledPrice p 3) (scaledPrice p 6) := hLmin
          _ ≤ scaledPrice p 3 := min_le_left _ _
          _ = 0 := hsp3
      rw [hp3, hp5] at hpl
      have hcount : ([0, p 4, 0, p 6].filter
          (fun x => decide (0 < x ∧ x < price_limit intr))).length ≤ 2 := by
        cases hf4 : decide (0 < p 4 ∧ p 4 < price_limit intr) <;>
          cases hf6 : decide (0 < p 6 ∧ p 6 < price_limit intr) <;>
            simp [List.filter, hf4, hf6]
      omega
    · exact hp3
  · rcases Nat.eq_zero_or_pos (p 4) with hp4 | hp4
    · exfalso
      have hsp4 : scaledPrice p 4 = 0 := (scaledPrice_eq_zero_iff p 4).mpr hp4
      have hzero : ∀ i : Fin 8, scaledPrice p i ≤ scaledPrice p 4 → p i = 0 := by
        intro i hi
        exact (scaledPrice_eq_zero_iff p i).mp
          (le_antisymm (hsp4 ▸ hi) (scaledPrice_nonneg p i))
      have hp3 : p 3 = 0 := hzero 3 hmax3
      have hp5 : p 5 = 0 := hzero 5 hHL
      have hp6 : p 6 = 0 := hzero 6 hmax6
      rw [hp3, hp4, hp5, hp6] at hpl
      simp [List.filter] at hpl
    · exact hp4
  · rcases Nat.eq_zero_or_pos (p 6) with hp6 | hp6
    · exfalso
      have hsp6 : scaledPrice p 6 = 0 := (scaledPrice_eq_zero_iff p 6).mpr hp6
      have hp5 : p 5 = 0 := by
        refine (scaledPrice_eq_zero_iff p 5).mp (le_antisymm ?_ (scaledPrice_nonneg p 5))
        calc scaledPrice p 5 ≤ min (scaledPrice p 3) (scaledPrice p 6) := hLmin
          _ ≤ scaledPrice p 6 := min_le_right _ _
          _ = 0 := hsp6
      rw [hp5, hp6] at hpl
      have hcount : ([p 3, p 4, 0, 0].filter
          (fun x => decide (0 < x ∧ x < price_limit intr))).length ≤ 2 := by
        cases hf3 : decide (0 < p 3 ∧ p 3 < price_limit intr) <;>
          cases hf4 : decide (0 < p 4 ∧ p 4 < price_limit intr) <;>
            simp [List.filter, hf3, hf4]
      omega
    · exact hp6

theorem mem_parse {conv : ℤ → Option (String × String)} {path : String}
    {read : Option (List ℕ)} {r : Row} (h : r ∈ parse_dat_file conv path read) :
    ∃ b : RawBar, (∃ p v : Fin 8 → ℕ,
        assembleBar conv (_detect_data_type path) p v = some b) ∧
      r.timestamp = b.timestamp ∧ r.open_ = b.open_ ∧ r.high = b.high ∧
      r.low = b.low ∧ r.close = b.close ∧ r.volume = b.volume ∧
      r.amount = b.amount := by
  rcases parse_eq_cases conv path read with he | ⟨data, rfl, he⟩
  · rw [he] at h
    exact absurd h (List.not_mem_nil r)
  · rw [he] at h
    obtain ⟨b, hb, hfields⟩ := attachPct_mem h
    have hb2 : b ∈ assemblePairs conv (_detect_data_type path) (fileRecords data) :=
      ((List.perm_insertionSort tsLE _).mem_iff).mp hb
    exact ⟨b, mem_assemblePairs _ b hb2, hfields⟩

/-! ### Positional lemmas on the derived-column pass -/

theorem attachPct_length (code : String) :
    ∀ (pc : Option ℚ) (l : List RawBar), (attachPct code pc l).length = l.length
  | _, [] => rfl
  | pc, b :: rest => by
    simp only [attachPct, List.length_cons]
    rw [attachPct_length code (some b.close) rest]

theorem attachPct_map_timestamp (code : String) :
    ∀ (pc : Option ℚ) (l : List RawBar),
      (attachPct code pc l).map Row.timestamp = l.map RawBar.timestamp
  | _, [] => rfl
  | pc, b :: rest => by
    simp only [attachPct, List.map_cons]
    rw [attachPct_map_timestamp code (some b.close) rest]

theorem attachPct_get_close (code : String) :
    ∀ (pc : Option ℚ) (l : List RawBar) (i : ℕ) (h : i < l.length)
      (h2 : i < (attachPct code pc l).length),
      ((attachPct code pc l).get ⟨i, h2⟩).close = (l.get ⟨i, h⟩).close
  | _, [], i, h, _ => absurd h (by simp)
  | pc, b :: rest, 0, h, h2 => rfl
  | pc, b :: rest, i + 1, h, h2 =>
    attachPct_get_close code (some b.close) rest i (Nat.lt_of_succ_lt_succ h)
      (Nat.lt_of_succ_lt_succ (by simpa [attachPct] using h2))

theorem attachPct_get_pct_head_none (code : String) (b : RawBar)
    (rest : List RawBar) (h2 : 0 < (attachPct code none (b :: rest)).length) :
    ((attachPct code none (b :: rest)).get ⟨0, h2⟩).pct_change = none := rfl

theorem attachPct_get_pct_head_some (code : String) (b : RawBar)
    (rest : List RawBar) (q : ℚ)
    (h2 : 0 < (attachPct code (some q) (b :: rest)).length) :
    ((attachPct code (some q) (b :: rest)).get ⟨0, h2⟩).pct_change =
      pctChange q b.close := rfl

theorem attachPct_get_pct_succ (code : String) :
    ∀ (pc : Option ℚ) (l : List RawBar) (i : ℕ) (h : i + 1 < l.length)
      (h2 : i + 1 < (attachPct code pc l).length) (h3 : i < l.length),
      ((attachPct code pc l).get ⟨i + 1, h2⟩).pct_change =
        pctChange ((l.get ⟨i, h3⟩).close) ((l.get ⟨i + 1, h⟩).close)
  | _, [], i, h, _, _ => absurd h (by simp)
  | pc, b :: rest, 0, h, h2, h3 => by
    cases rest with
    | nil => exact absurd h (by simp)
    | cons c rest2 => rfl
  | pc, b :: rest, i + 1, h, h2, h3 =>
    attachPct_get_pct_succ code (some b.close) rest i (Nat.lt_of_succ_lt_succ h)
      (Nat.lt_of_succ_lt_succ (by simpa [attachPct] using h2))
      (Nat.lt_of_succ_lt_succ h3)

/-! ### Sortedness of the output -/

theorem parse_sorted (conv : ℤ → Option (String × String)) (path : String)
    (read : Option (List ℕ)) :
    List.Pairwise (fun a b : Row => a.timestamp ≤ b.timestamp)
      (parse_dat_file conv path read) := by
  rcases parse_eq_cases conv path read with he | ⟨data, rfl, he⟩ <;> rw [he]
  · exact List.Pairwise.nil
  · have hs : List.Sorted tsLE (List.insertionSort tsLE
        (assemblePairs conv (_detect_data_type path) (fileRecords data))) :=
      List.sorted_insertionSort tsLE _
    have hmap := attachPct_map_timestamp (stem path) none
      (List.insertionSort tsLE
        (assemblePairs conv (_detect_data_type path) (fileRecords data)))
    have hpair : List.Pairwise (fun s t : String => s ≤ t)
        ((attachPct (stem path) none (List.insertionSort tsLE
          (assemblePairs conv (_detect_data_type path) (fileRecords data)))).map
            Row.timestamp) := by
      rw [hmap]
      exact List.pairwise_map.mpr hs
    exact List.pairwise_map.mp hpair

/-! ### Byte-level slicing lemmas -/

theorem take_append_le {α : Type} {l₁ l₂ : List α} :
    ∀ {n : ℕ}, n ≤ l₁.length → (l₁ ++ l₂).take n = l₁.take n := by
  induction l₁ with
  | nil =>
    intro n h
    have hn : n = 0 := Nat.le_zero.mp (by simpa using h)
    subst hn
    simp
  | cons a t ih =>
    intro n h
    cases n with
    | zero => simp
    | succ m =>
      simp only [List.cons_append, List.take_succ_cons]
      rw [ih (Nat.le_of_succ_le_succ h)]

theorem drop_append_le {α : Type} {l₁ l₂ : List α} :
    ∀ {n : ℕ}, n ≤ l₁.length → (l₁ ++ l₂).drop n = l₁.drop n ++ l₂ := by
  induction l₁ with
  | nil =>
    intro n h
    have hn : n = 0 := Nat.le_zero.mp (by simpa using h)
    subst hn
    simp
  | cons a t ih =>
    intro n h
    cases n with
    | zero => simp
    | succ m =>
      simp only [List.cons_append, List.drop_succ_cons]
      exact ih (Nat.le_of_succ_le_succ h)

theorem sliceRecord_append {data extra : List ℕ} {i : ℕ}
    (h : recordSize * (i + 1) ≤ data.length) :
    sliceRecord (data ++ extra) i = sliceRecord data i := by
  rw [sliceRecord, sliceRecord, recordSize] at *
  rw [drop_append_le (by omega)]
  rw [take_append_le (by rw [List.length_drop]; omega)]

theorem sliceRecord_take {data : List ℕ} {m i : ℕ}
    (h : recordSize * (i + 1) ≤ m) :
    sliceRecord (data.take m) i = sliceRecord data i := by
  rw [sliceRecord, sliceRecord, recordSize] at *
  rw [List.take_drop, List.take_drop, List.take_take]
  congr 2
  omega

theorem recordCount_mul_le (data : List ℕ) (i : ℕ) (h : i < recordCount data) :
    recordSize * (i + 1) ≤ data.length := by
  rw [recordCount, recordSize] at h
  rw [recordSize]
  omega

theorem fileRecords_append {data extra : List ℕ}
    (hdata : data.length % recordSize = 0) (hextra : extra.length < recordSize) :
    fileRecords (data ++ extra) = fileRecords data := by
  have hcount : recordCount (data ++ extra) = recordCount data := by
    rw [recordCount, recordCount, recordSize] at *
    rw [List.length_append]
    omega
  rw [fileRecords, fileRecords, hcount]
  apply List.map_congr_left
  intro i hi
  exact sliceRecord_append (recordCount_mul_le data i (List.mem_range.mp hi))

/-! ### Pair-loop counting and truncation lemmas -/

theorem assemblePairs_length_le (conv : ℤ → Option (String × String))
    (intr : Bool) :
    ∀ (rs : List (List ℕ)), (assemblePairs conv intr rs).length ≤ rs.length / 2
  | [] => by simp [assemblePairs]
  | [r] => by simp [assemblePairs]
  | x :: y :: rest => by
    simp only [assemblePairs]
    have ih := assemblePairs_length_le conv intr rest
    split
    · simp
    · split
      · simp only [List.length_cons]
        omega
      · simp only [List.length_cons]
        omega

theorem assemblePairs_append_singleton (conv : ℤ → Option (String × String))
    (intr : Bool) :
    ∀ (rs : List (List ℕ)) (r : List ℕ), rs.length % 2 = 0 →
      assemblePairs conv intr (rs ++ [r]) = assemblePairs conv intr rs
  | [], r, _ => by simp [assemblePairs]
  | [x], r, h => by simp at h
  | x :: y :: rest, r, h => by
    have ih := assemblePairs_append_singleton conv intr rest r (by
      simp only [List.length_cons] at h
      omega)
    simp only [List.cons_append, assemblePairs]
    rw [show rest.append [r] = rest ++ [r] from rfl, ih]

/-! ### The batch loop -/

theorem flatten_filter_nonEmpty {α : Type} :
    ∀ (L : List (List α)), ((L.filter (fun l => ¬ l.isEmpty)).flatten) = L.flatten
  | [] => rfl
  | l :: ls => by
    have ih := flatten_filter_nonEmpty ls
    simp only [decide_not, Bool.decide_eq_true] at ih
    cases hl : l.isEmpty
    · simp [List.filter_cons, hl, ih]
    · have hnil : l = [] := List.isEmpty_iff.mp hl
      subst hnil
      simp [List.filter_cons, ih]

theorem parse_directory_eq (conv : ℤ → Option (String × String))
    (files : List (String × Option (List ℕ))) :
    parse_directory conv files =
      (files.map (fun f => parse_dat_file conv f.1 f.2)).flatten := by
  rw [parse_directory]
  exact flatten_filter_nonEmpty _

/-! ### Truncation equalities at the file level -/

theorem parse_append_tail (conv : ℤ → Option (String × String)) (path : String)
    (data extra : List ℕ) (hdata : data.length % recordSize = 0)
    (hextra : extra.length < recordSize) :
    parse_dat_file conv path (some (data ++ extra)) =
      parse_dat_file conv path (some data) := by
  have h1 : recordCount (data ++ extra) = recordCount data := by
    rw [recordCount, recordCount, recordSize] at *
    rw [List.length_append]
    omega
  have h2 : fileRecords (data ++ extra) = fileRecords data :=
    fileRecords_append hdata hextra
  simp only [parse_dat_file, h1, h2]

theorem fileRecords_length (data : List ℕ) :
    (fileRecords data).length = recordCount data := by
  rw [fileRecords, List.length_map, List.length_range]

theorem parse_odd_drop (conv : ℤ → Option (String × String)) (path : String)
    (data : List ℕ) (n : ℕ) (h : data.length = recordSize * (2 * n + 1)) :
    parse_dat_file conv path (some data) =
      parse_dat_file conv path (some (data.take (recordSize * (2 * n)))) := by
  rw [recordSize] at h
  have hcount : recordCount data = 2 * n + 1 := by
    rw [recordCount, recordSize]
    omega
  have htlen : (data.take (recordSize * (2 * n))).length = 32 * (2 * n) := by
    rw [List.length_take, recordSize]
    omega
  have hcount2 : recordCount (data.take (recordSize * (2 * n))) = 2 * n := by
    rw [recordCount, htlen, recordSize]
    omega
  have hrec : fileRecords data =
      fileRecords (data.take (recordSize * (2 * n))) ++ [sliceRecord data (2 * n)] := by
    rw [fileRecords, fileRecords, hcount, hcount2, List.range_succ, List.map_append]
    congr 1
    apply List.map_congr_left
    intro i hi
    exact (sliceRecord_take (by
      rw [recordSize]
      have := List.mem_range.mp hi
      omega)).symm
  have hassemble : ∀ intr, assemblePairs conv intr (fileRecords data) =
      assemblePairs conv intr (fileRecords (data.take (recordSize * (2 * n)))) := by
    intro intr
    rw [hrec]
    apply assemblePairs_append_singleton
    rw [fileRecords_length, hcount2]
    omega
  simp only [parse_dat_file, hcount, hcount2, hassemble]
  rcases Nat.eq_zero_or_pos n with hn | hn
  · subst hn
    have hrecs : fileRecords (data.take (recordSize * (2 * 0))) = [] := by
      rw [fileRecords, hcount2]
      rfl
    simp [hrecs, assemblePairs]
  · have h1 : ¬ (2 * n + 1 = 0) := by omega
    have h2 : ¬ (2 * n = 0) := by omega
    simp [h1, h2]

/-! ### Remaining bridges -/

theorem round2_natDiv100 (n : ℕ) :
    round2 (qdiv ((n : ℕ) : ℚ) 100) = qdiv ((n : ℕ) : ℚ) 100 := by
  rw [qdiv_eq]
  exact round2_of_mul_100_int n (by
    push_cast
    rw [mul_div_cancel₀]
    norm_num)

theorem pctChange_eq (prev cur : ℚ) :
    pctChange prev cur = if prev = 0 then none
      else some ((cur / prev - 1) * 100) := by
  rw [pctChange]
  split
  · rfl
  · rw [qmul_eq, qsub_eq, qdiv_eq]

/-! ### Claim theorems -/

/-- C1: for every bar materialized by the assembler — any input file, any
DataSetKind — the emitted open/high/low/close satisfy
`low ≤ min(open, close)` and `max(open, close) ≤ high`, including after
the final 2-digit rounding applied at emission. -/
theorem ohlc_invariant (conv : ℤ → Option (String × String)) (path : String)
    (read : Option (List ℕ)) (r : Row) (h : r ∈ parse_dat_file conv path read) :
    r.low ≤ min r.open_ r.close ∧ max r.open_ r.close ≤ r.high := by
  obtain ⟨b, ⟨p, v, hb⟩, -, ho, hh, hl, hc, -, -⟩ := mem_parse h
  rw [ho, hh, hl, hc]
  exact bar_invariant hb

theorem ohlc_invariant_witness :
    rowD0 ∈ parse_dat_file convT pathA (some fileA) ∧
    (rowD0.low ≤ min rowD0.open_ rowD0.close ∧
      max rowD0.open_ rowD0.close ≤ rowD0.high) := by
  refine ⟨by decide, ohlc_invariant convT pathA (some fileA) rowD0 (by decide)⟩

/-- C2 counterexample: the claim "each stored price field is strictly
positive (and they are never all simultaneously zero) in the emitted bar
after 2-digit rounding" is false: the file `fileTiny` materializes a bar
whose four rounded prices are all zero. -/
theorem price_positivity_cex :
    rowTiny ∈ parse_dat_file convT "a.DAT" (some fileTiny) ∧
    rowTiny.open_ = 0 ∧ rowTiny.high = 0 ∧ rowTiny.low = 0 ∧
    rowTiny.close = 0 := by
  exact ⟨by decide, rfl, rfl, rfl, rfl⟩

/-- C2 (amended): for every bar materialized by the assembler, each of the
four stored price fields open, high, low, close is non-negative in the
emitted bar after 2-digit rounding; strict positivity (and "not all
simultaneously zero") can fail after rounding. -/
theorem price_nonneg (conv : ℤ → Option (String × String)) (path : String)
    (read : Option (List ℕ)) (r : Row) (h : r ∈ parse_dat_file conv path read) :
    0 ≤ r.open_ ∧ 0 ≤ r.high ∧ 0 ≤ r.low ∧ 0 ≤ r.close := by
  obtain ⟨b, ⟨p, v, hb⟩, -, ho, hh, hl, hc, -, -⟩ := mem_parse h
  rw [ho, hh, hl, hc]
  exact bar_price_nonneg hb

theorem price_nonneg_witness :
    rowD0 ∈ parse_dat_file convT pathA (some fileA) ∧
    (0 ≤ rowD0.open_ ∧ 0 ≤ rowD0.high ∧ 0 ≤ rowD0.low ∧ 0 ≤ rowD0.close) := by
  refine ⟨by decide, price_nonneg convT pathA (some fileA) rowD0 (by decide)⟩

/-- C3: for every accepted record pair, open/high/low/close come from
price-record indices 3, 4, 5, 6 divided by 1000.0 (then rounded to two
digits at emission); in Daily mode volume is index 0 of the volume record
times 100 and amount is index 2 unscaled; in Intraday mode volume is
index 0 unscaled and amount is index 2 divided by 100.0 exactly when that
raw value exceeds 1 000 000, else the raw value as-is. -/
theorem scaling_rules (conv : ℤ → Option (String × String)) (intr : Bool)
    (p v : Fin 8 → ℕ) (b : RawBar) (h : assembleBar conv intr p v = some b) :
    b.open_ = round2 ((p 3 : ℚ) / 1000) ∧
    b.high = round2 ((p 4 : ℚ) / 1000) ∧
    b.low = round2 ((p 5 : ℚ) / 1000) ∧
    b.close = round2 ((p 6 : ℚ) / 1000) ∧
    b.volume = (if intr then v 0 else v 0 * 100) ∧
    b.amount = (if intr then
        (if 1000000 < v 2 then (v 2 : ℚ) / 100 else ((v 2 : ℕ) : ℚ))
      else ((v 2 : ℕ) : ℚ)) := by
  obtain ⟨-, -, -, rfl⟩ := assembleBar_elim h
  refine ⟨?_, ?_, ?_, ?_, rfl, ?_⟩
  · show round2 (scaledPrice p 3) = _
    rw [scaledPrice, qdiv_eq]
  · show round2 (scaledPrice p 4) = _
    rw [scaledPrice, qdiv_eq]
  · show round2 (scaledPrice p 5) = _
    rw [scaledPrice, qdiv_eq]
  · show round2 (scaledPrice p 6) = _
    rw [scaledPrice, qdiv_eq]
  · show round2 (barAmount intr v) = _
    rw [barAmount]
    cases intr with
    | false =>
      simp only [Bool.false_eq_true, if_false]
      exact round2_natCast (v 2)
    | true =>
      simp only [if_true]
      split
      · rw [round2_natDiv100, qdiv_eq]
      · exact round2_natCast (v 2)

theorem scaling_rules_witness :
    assembleBar convT true (unpackedOf priceRec1) (unpackedOf volRec2) =
      some barB ∧
    (barB.open_ = round2 ((unpackedOf priceRec1 3 : ℚ) / 1000) ∧
     barB.high = round2 ((unpackedOf priceRec1 4 : ℚ) / 1000) ∧
     barB.low = round2 ((unpackedOf priceRec1 5 : ℚ) / 1000) ∧
     barB.close = round2 ((unpackedOf priceRec1 6 : ℚ) / 1000) ∧
     barB.volume = (if true then unpackedOf volRec2 0
       else unpackedOf volRec2 0 * 100) ∧
     barB.amount = (if true then
         (if 1000000 < unpackedOf volRec2 2 then
           (unpackedOf volRec2 2 : ℚ) / 100
          else ((unpackedOf volRec2 2 : ℕ) : ℚ))
       else ((unpackedOf volRec2 2 : ℕ) : ℚ))) := by
  refine ⟨by decide, scaling_rules convT true (unpackedOf priceRec1)
    (unpackedOf volRec2) barB (by decide)⟩

/-- C10: in every record pair that passes all gates, the raw integers at
price-record indices 3, 4 and 6 (open, high, close before scaling) are
strictly positive; a zero raw low (index 5) can nevertheless be accepted,
as the second conjunct shows on a concrete pair. -/
theorem raw_price_positivity :
    (∀ (conv : ℤ → Option (String × String)) (intr : Bool)
      (p v : Fin 8 → ℕ) (b : RawBar), assembleBar conv intr p v = some b →
        0 < p 3 ∧ 0 < p 4 ∧ 0 < p 6) ∧
    (assembleBar convT false (unpackedOf priceRecZL) (unpackedOf volRec1) =
        some barZL ∧
      unpackedOf priceRecZL 5 = 0) := by
  exact ⟨fun conv intr p v b h => accepted_raw_pos h, by decide, by decide⟩

theorem raw_price_positivity_witness :
    assembleBar convT false (unpackedOf priceRec1) (unpackedOf volRec1) =
      some barD1 ∧
    (0 < unpackedOf priceRec1 3 ∧ 0 < unpackedOf priceRec1 4 ∧
      0 < unpackedOf priceRec1 6) := by
  refine ⟨by decide, raw_price_positivity.1 convT false (unpackedOf priceRec1)
    (unpackedOf volRec1) barD1 (by decide)⟩

theorem attach_pct_law (code : String) (l : List RawBar) :
    (∀ h0 : 0 < (attachPct code none l).length,
      ((attachPct code none l).get ⟨0, h0⟩).pct_change = none) ∧
    (∀ (i : ℕ) (h : i + 1 < (attachPct code none l).length),
      ((attachPct code none l).get ⟨i + 1, h⟩).pct_change =
        if ((attachPct code none l).get ⟨i, Nat.lt_of_succ_lt h⟩).close = 0
        then none
        else some ((((attachPct code none l).get ⟨i + 1, h⟩).close /
          ((attachPct code none l).get ⟨i, Nat.lt_of_succ_lt h⟩).close - 1)
            * 100)) := by
  constructor
  · intro h0
    cases l with
    | nil => simp [attachPct] at h0
    | cons b rest => exact attachPct_get_pct_head_none code b rest h0
  · intro i h
    have hl : i + 1 < l.length := by
      rw [← attachPct_length code none l]
      exact h
    have hi : i < l.length := Nat.lt_of_succ_lt hl
    rw [attachPct_get_pct_succ code none l i hl h hi]
    rw [attachPct_get_close code none l i hi (Nat.lt_of_succ_lt h)]
    rw [attachPct_get_close code none l (i + 1) hl h]
    exact pctChange_eq _ _

/-- C4: for every series produced for one file, the first row's
`pct_change` is undefined (`none`), and for every `i ≥ 1` the `i`-th row's
`pct_change` equals `(close[i] / close[i-1] - 1) * 100` over the series
after sorting by timestamp; a zero previous close yields the undefined
sentinel (`none`, modelling the pandas NaN/inf float sentinels) rather
than a crash. -/
theorem pct_change_law (conv : ℤ → Option (String × String)) (path : String)
    (read : Option (List ℕ)) :
    (∀ h0 : 0 < (parse_dat_file conv path read).length,
      ((parse_dat_file conv path read).get ⟨0, h0⟩).pct_change = none) ∧
    (∀ (i : ℕ) (h : i + 1 < (parse_dat_file conv path read).length),
      ((parse_dat_file conv path read).get ⟨i + 1, h⟩).pct_change =
        if ((parse_dat_file conv path read).get
              ⟨i, Nat.lt_of_succ_lt h⟩).close = 0
        then none
        else some ((((parse_dat_file conv path read).get ⟨i + 1, h⟩).close /
          ((parse_dat_file conv path read).get
            ⟨i, Nat.lt_of_succ_lt h⟩).close - 1) * 100)) := by
  rcases parse_eq_cases conv path read with he | ⟨data, -, he⟩ <;> rw [he]
  · constructor
    · intro h0
      simp at h0
    · intro i h
      simp at h
  · exact attach_pct_law (stem path) _

theorem pct_change_law_witness :
    ((parse_dat_file convT pathA (some fileA)).get ⟨0, by decide⟩).pct_change =
      none ∧
    ((parse_dat_file convT pathA (some fileA)).get ⟨1, by decide⟩).pct_change =
      (if ((parse_dat_file convT pathA (some fileA)).get
            ⟨0, by decide⟩).close = 0
       then none
       else some ((((parse_dat_file convT pathA (some fileA)).get
             ⟨1, by decide⟩).close /
         ((parse_dat_file convT pathA (some fileA)).get
           ⟨0, by decide⟩).close - 1) * 100)) :=
  ⟨(pct_change_law convT pathA (some fileA)).1 (by decide),
   (pct_change_law convT pathA (some fileA)).2 0 (by decide)⟩

/-- C5: records are consumed in non-overlapping (price, volume) pairs
advancing by two: a file of `2n` full records yields at most `n` bars (the
row count is bounded by half the record count), and a file of `2n + 1`
full records parses identically to its truncation to the first `2n`
records — the dangling final record is ignored. -/
theorem pairing_policy (conv : ℤ → Option (String × String)) (path : String)
    (data : List ℕ) (n : ℕ) :
    (parse_dat_file conv path (some data)).length ≤ recordCount data / 2 ∧
    (data.length = 32 * (2 * n + 1) →
      parse_dat_file conv path (some data) =
        parse_dat_file conv path (some (data.take (32 * (2 * n))))) := by
  constructor
  · rcases parse_eq_cases conv path (some data) with he | ⟨d2, hd2, he⟩
    · rw [he]
      simp
    · have hd : d2 = data := (Option.some.inj hd2).symm
      subst hd
      rw [he, attachPct_length, (List.perm_insertionSort tsLE _).length_eq]
      have hle := assemblePairs_length_le conv (_detect_data_type path)
        (fileRecords d2)
      rw [fileRecords_length] at hle
      exact hle
  · intro h
    exact parse_odd_drop conv path data n h

theorem pairing_policy_witness :
    fileOdd.length = 32 * (2 * 1 + 1) ∧
    ((parse_dat_file convT pathA (some fileOdd)).length ≤
        recordCount fileOdd / 2 ∧
      parse_dat_file convT pathA (some fileOdd) =
        parse_dat_file convT pathA (some (fileOdd.take (32 * (2 * 1))))) :=
  ⟨by decide, (pairing_policy convT pathA fileOdd 1).1,
    (pairing_policy convT pathA fileOdd 1).2 (by decide)⟩

/-- C6: every series produced for one file is sorted ascending by the
timestamp string, so consecutive timestamp strings are non-decreasing;
structurally, the output is exactly the derived-column pass applied after
sorting the accepted bars, so `pct_change` is computed only after this
ordering. -/
theorem chronological_ordering (conv : ℤ → Option (String × String))
    (path : String) (read : Option (List ℕ)) :
    List.Pairwise (fun a b : Row => a.timestamp ≤ b.timestamp)
      (parse_dat_file conv path read) ∧
    (parse_dat_file conv path read = [] ∨
      ∃ data, read = some data ∧ parse_dat_file conv path read =
        attachPct (stem path) none (List.insertionSort tsLE
          (assemblePairs conv (_detect_data_type path) (fileRecords data)))) :=
  ⟨parse_sorted conv path read, parse_eq_cases conv path read⟩

/-- C7: the timestamp interpreter returns the formatted calendar date
(`precise = false`) or the full date-time (`precise = true`) exactly for
integers strictly between 1 500 000 000 and 2 000 000 000 whose calendar
conversion succeeds; outside that range, or on conversion failure, it
returns the decimal string form of the integer (and, being a total
function, never propagates an error). -/
theorem parse_date_spec (conv : ℤ → Option (String × String)) (n : ℤ)
    (precise : Bool) :
    (¬ (1500000000 < n ∧ n < 2000000000) →
      parse_date conv n precise = toString n) ∧
    ((1500000000 < n ∧ n < 2000000000) → conv n = none →
      parse_date conv n precise = toString n) ∧
    ((1500000000 < n ∧ n < 2000000000) → ∀ d t, conv n = some (d, t) →
      parse_date conv n precise = if precise then t else d) := by
  refine ⟨?_, ?_, ?_⟩
  · intro h
    rw [parse_date, if_neg h]
  · intro h hc
    rw [parse_date, if_pos h, hc]
  · intro h d t hc
    rw [parse_date, if_pos h, hc]

theorem parse_date_spec_witness :
    parse_date convT 1600000000 false =
      (if false then "1600000000 T" else "1600000000") ∧
    parse_date convT 123 false = toString (123 : ℤ) :=
  ⟨(parse_date_spec convT 1600000000 false).2.2 ⟨by decide, by decide⟩
      "1600000000" "1600000000 T" (by decide),
   (parse_date_spec convT 123 false).1 (by decide)⟩

/-- C8: a file whose final 32-byte-aligned block is followed by a partial
record shorter than 32 bytes parses to the same series as the file
truncated before the partial record — not an error — so all bars accepted
before the structural shortfall are kept. -/
theorem malformed_tail (conv : ℤ → Option (String × String)) (path : String)
    (data extra : List ℕ) (h1 : data.length % 32 = 0)
    (h2 : extra.length < 32) :
    parse_dat_file conv path (some (data ++ extra)) =
      parse_dat_file conv path (some data) :=
  parse_append_tail conv path data extra h1 h2

theorem malformed_tail_witness :
    fileA.length % 32 = 0 ∧
    parse_dat_file convT pathA (some (fileA ++ [1, 2, 3])) =
      parse_dat_file convT pathA (some fileA) :=
  ⟨by decide, malformed_tail convT pathA fileA [1, 2, 3] (by decide) (by decide)⟩

/-- C9: the per-file parse is a total function (it cannot raise to its
caller): an unreadable file, a file with no full record, and a file in
which every pair is rejected all produce the explicit empty table `[]` —
a success outcome with zero rows — and the batch over many files always
completes, producing exactly the concatenation of the per-file results. -/
theorem batch_never_fails (conv : ℤ → Option (String × String)) :
    (∀ path, parse_dat_file conv path none = []) ∧
    (∀ path data, recordCount data = 0 →
      parse_dat_file conv path (some data) = []) ∧
    (∀ path data,
      assemblePairs conv (_detect_data_type path) (fileRecords data) = [] →
      parse_dat_file conv path (some data) = []) ∧
    (∀ files, parse_directory conv files =
      (files.map (fun f => parse_dat_file conv f.1 f.2)).flatten) := by
  refine ⟨fun path => rfl, ?_, ?_, fun files => parse_directory_eq conv files⟩
  · intro path data h
    simp [parse_dat_file, h]
  · intro path data h
    by_cases hc : recordCount data = 0
    · simp [parse_dat_file, hc]
    · simp [parse_dat_file, hc, h]

theorem batch_never_fails_witness :
    assemblePairs convT (_detect_data_type pathA) (fileRecords fileRej) = [] ∧
    parse_dat_file convT pathA (some fileRej) = [] :=
  ⟨by decide, (batch_never_fails convT).2.2.1 pathA fileRej (by decide)⟩

end DataToolsQMT
